import Mathlib

set_option maxHeartbeats 1000000

/-!
Shallow embedding of the RUIDAI-REACT front-end (src/src/App.jsx).

Strings are modelled as `List Char`; JavaScript regular-expression scanning is
embedded as explicit left-to-right scanning functions over character lists.
-/

/-- Characters removed by JavaScript `String.prototype.trim` (the subset that
can occur in the inputs handled here: space, tab, LF, CR, VT, FF). -/
def isWS (c : Char) : Bool :=
  c == ' ' || c == '\t' || c == '\n' || c == '\r' || c == '\u000B' || c == '\u000C'

/-- JavaScript `String.prototype.trim`: strip whitespace from both ends. -/
def trimJS (s : List Char) : List Char :=
  ((s.reverse.dropWhile isWS).reverse).dropWhile isWS

/-- `leadsWith pat s` holds when `pat` is an initial segment of `s`
(the anchored literal test a JS regex performs at one scan position). -/
def leadsWith : List Char → List Char → Bool
  | [], _ => true
  | _ :: _, [] => false
  | a :: as, b :: bs => a == b && leadsWith as bs

/-- Scan `s` left to right for the first occurrence of the literal `pat`
(like `String.prototype.match` locating its anchor) and return the remainder
of the string after that occurrence, or `none` when `pat` does not occur. -/
def findDrop (pat : List Char) : List Char → Option (List Char)
  | [] => if leadsWith pat [] then some [] else none
  | c :: cs =>
    if leadsWith pat (c :: cs) then some ((c :: cs).drop pat.length)
    else findDrop pat cs

/-- `pat` occurs somewhere in `s`. -/
def containsSub (pat s : List Char) : Bool :=
  (findDrop pat s).isSome

/-- The horizontal-rule terminator `---` of the section regexes
(`/## 問題([\s\S]*?)(?=---|\n## |$)/`, App.jsx lines 382-383). -/
def hrTok : List Char := ['-', '-', '-']

/-- The next-heading terminator `\n## ` of the section regexes. -/
def nhTok : List Char := ['\n', '#', '#', ' ']

/-- A scan position where the lookahead `(?=---|\n## )` succeeds. -/
def isStop (s : List Char) : Bool :=
  leadsWith hrTok s || leadsWith nhTok s

/-- Lazy capture `([\s\S]*?)` up to the first position where the lookahead
`(?=---|\n## |$)` succeeds: take characters until `---` or `\n## ` starts,
or the end of the string. -/
def takeUntilStop : List Char → List Char
  | [] => []
  | c :: cs => if isStop (c :: cs) then [] else c :: takeUntilStop cs

/-- Problem-section heading anchor `## 問題` (App.jsx line 382). -/
def h1Tok : List Char := ['#', '#', ' ', '問', '題']

/-- Solution-section heading anchor `## 解答・解説` (App.jsx line 383). -/
def h2Tok : List Char := ['#', '#', ' ', '解', '答', '・', '解', '説']

/-- Instructor-guide heading anchor `## 講師向けガイド` (App.jsx line 384). -/
def h3Tok : List Char := ['#', '#', ' ', '講', '師', '向', 'け', 'ガ', 'イ', 'ド']

/-- `problemMatch ? problemMatch[1].trim() : ''` (App.jsx lines 382, 386):
capture after the first `## 問題` up to `---`/`\n## `/end, trimmed;
empty when the heading is absent. -/
def problemContent (result : List Char) : List Char :=
  match findDrop h1Tok result with
  | some rest => trimJS (takeUntilStop rest)
  | none => []

/-- `solutionMatch ? solutionMatch[1].trim() : ''` (App.jsx lines 383, 387). -/
def solutionContent (result : List Char) : List Char :=
  match findDrop h2Tok result with
  | some rest => trimJS (takeUntilStop rest)
  | none => []

/-- `instructorMatch ? instructorMatch[1].trim() : ''` (App.jsx lines 384, 388):
the regex `/## 講師向けガイド([\s\S]*?)$/` captures to the end of the string. -/
def instructorContent (result : List Char) : List Char :=
  match findDrop h3Tok result with
  | some rest => trimJS rest
  | none => []

/-- The three extracted sections of `openPrintPreview` (App.jsx lines 382-388). -/
def splitSections (result : List Char) : List Char × List Char × List Char :=
  (problemContent result, solutionContent result, instructorContent result)

/-- Formalisation of the spec sentence "each terminated by the next heading or
a horizontal-rule marker or end of text" applied uniformly to the
instructor-guide section as well (the behaviour the claim asserts). -/
def specInstructorContent (result : List Char) : List Char :=
  match findDrop h3Tok result with
  | some rest => trimJS (takeUntilStop rest)
  | none => []

/-- The `\n---\n` separator that stands between sections in the canonical
reply format (the prompt templates at App.jsx lines 323-364 place `---` on a
line of its own between the three sections). -/
def sepTok : List Char := ['\n', '-', '-', '-', '\n']

/-- Decidable check that no occurrence of `pat` can start inside the concrete
block `x`, whatever text follows: every nonempty suffix of `x` neither starts
with `pat` nor is an initial segment of `pat`. -/
def tailsOk (pat x : List Char) : Bool :=
  x.tails.all fun r => r.isEmpty || (!leadsWith pat r && !leadsWith r pat)

/-- The section extraction with the JavaScript failure mode made explicit:
`match` returning `null` followed by an unguarded `[1]` access would be a
thrown `TypeError`; the source guards every access with `m ? m[1].trim() : ''`
(App.jsx lines 386-388), so both arms produce a value. -/
def problemContentE (result : List Char) : Except (List Char) (List Char) :=
  match findDrop h1Tok result with
  | some rest => Except.ok (trimJS (takeUntilStop rest))
  | none => Except.ok []

/-- Guarded solution-section extraction (see `problemContentE`). -/
def solutionContentE (result : List Char) : Except (List Char) (List Char) :=
  match findDrop h2Tok result with
  | some rest => Except.ok (trimJS (takeUntilStop rest))
  | none => Except.ok []

/-- Guarded instructor-section extraction (see `problemContentE`). -/
def instructorContentE (result : List Char) : Except (List Char) (List Char) :=
  match findDrop h3Tok result with
  | some rest => Except.ok (trimJS rest)
  | none => Except.ok []

/-- The full guarded section split of `openPrintPreview`. -/
def splitSectionsE (result : List Char) :
    Except (List Char) (List Char × List Char × List Char) := do
  let p ← problemContentE result
  let s ← solutionContentE result
  let g ← instructorContentE result
  return (p, s, g)

/-! ### Print-path markdown transform (App.jsx lines 651-661)

The `markdownToHtml` source keeps the empty-input guard `if (!md) return ''`
and the trailing-space cleanup `md.replace(/ +$/gm, '')`; the conversion to
HTML itself is delegated to the third-party react-markdown renderer, whose
code is not part of this repository.  The conversion is therefore modelled
from the spec (section 4.2): ordered pattern substitution over level-3
headings, bold, italic and paragraph breaks. -/

/-- First occurrence split: `splitOnce pat s = some (pre, post)` when
`s = pre ++ pat ++ post` at the leftmost occurrence of `pat`. -/
def splitOnce (pat : List Char) : List Char → Option (List Char × List Char)
  | [] => none
  | c :: cs =>
    if leadsWith pat (c :: cs) then some ([], (c :: cs).drop pat.length)
    else
      match splitOnce pat cs with
      | some (pre, post) => some (c :: pre, post)
      | none => none

/-- Fuel-bounded paired substitution: replace each `tok ... tok` pair (shortest
match, left to right) with `oT ... cT`, like the global lazy pair regexes of a
substitution renderer.  A fuel of the string length is always sufficient since
every step consumes at least two occurrences of the nonempty token. -/
def subPairFuel (tok oT cT : List Char) : Nat → List Char → List Char
  | 0, s => s
  | fuel + 1, s =>
    match splitOnce tok s with
    | none => s
    | some (pre, rest) =>
      match splitOnce tok rest with
      | none => s
      | some (mid, post) => pre ++ oT ++ mid ++ cT ++ subPairFuel tok oT cT fuel post

/-- Paired substitution with adequate fuel. -/
def subPair (tok oT cT : List Char) (s : List Char) : List Char :=
  subPairFuel tok oT cT s.length s

/-- Bold token `**`. -/
def boldTok : List Char := ['*', '*']

/-- Italic token `*`. -/
def italTok : List Char := ['*']

/-- Inline-math token of the on-screen dialect. -/
def mathTok : List Char := ['$']

/-- Modelled from the spec: bold substitution `**x**` to `<strong>x</strong>`. -/
def subBold (s : List Char) : List Char :=
  subPair boldTok ("<strong>").data ("</strong>").data s

/-- Modelled from the spec: italic substitution `*x*` to `<em>x</em>`. -/
def subItal (s : List Char) : List Char :=
  subPair italTok ("<em>").data ("</em>").data s

/-- Modelled from the spec: inline-math rendering `$x$` to a math span
(the on-screen renderer's math support; see `onScreenRender`). -/
def subMath (s : List Char) : List Char :=
  subPair mathTok ("<span class=\"math\">").data ("</span>").data s

/-- Split a text into its lines at `\n`. -/
def splitLines : List Char → List (List Char)
  | [] => [[]]
  | c :: cs =>
    if c = '\n' then [] :: splitLines cs
    else
      match splitLines cs with
      | [] => [[c]]
      | l :: ls => (c :: l) :: ls

/-- Rejoin lines with `\n`. -/
def joinLines : List (List Char) → List Char
  | [] => []
  | [l] => l
  | l :: ls => l ++ '\n' :: joinLines ls

/-- Level-3 heading marker `### `. -/
def h3LeadTok : List Char := ['#', '#', '#', ' ']

/-- Modelled from the spec: a line starting with `### ` becomes an `<h3>`. -/
def h3Sub (line : List Char) : List Char :=
  if leadsWith h3LeadTok line then ("<h3>").data ++ line.drop 4 ++ ("</h3>").data
  else line

/-- Modelled from the spec: level-3 heading substitution, line by line. -/
def subH3 (s : List Char) : List Char :=
  joinLines ((splitLines s).map h3Sub)

/-- Blank-line token `\n\n` marking a paragraph break. -/
def nlnlTok : List Char := ['\n', '\n']

/-- Replacement text of the paragraph-break substitution. -/
def parBreakTok : List Char := ['<', '/', 'p', '>', '<', 'p', '>']

/-- Modelled from the spec: the paragraph-break substitution, replacing each
`\n\n` (left to right, non-overlapping) with `</p><p>`. -/
def paraSub : List Char → List Char
  | [] => []
  | [c] => [c]
  | c :: d :: cs =>
    if c = '\n' ∧ d = '\n' then parBreakTok ++ paraSub cs
    else c :: paraSub (d :: cs)

/-- Modelled from the spec: the ordered substitution pipeline of the
print-path renderer (level-3 headings, bold, italic, paragraph breaks). -/
def specRender (s : List Char) : List Char :=
  paraSub (subItal (subBold (subH3 s)))

/-- The ECMAScript LineTerminator characters, before any of which the
multiline anchor `$` matches: LF, CR, U+2028 (LS) and U+2029 (PS). -/
def isLineTerm (c : Char) : Bool :=
  c == '\n' || c == '\r' || c == '\u2028' || c == '\u2029'

/-- The remainder of the string consists of zero or more spaces followed by a
line terminator or the end of the string (the positions where the multiline
anchor of `/ +$/gm` can succeed after a run of spaces). -/
def spacesThenBreak : List Char → Bool
  | [] => true
  | c :: cs =>
    if isLineTerm c = true then true
    else if c = ' ' then spacesThenBreak cs
    else false

/-- `md.replace(/ +$/gm, '')` (App.jsx line 655): remove every run of spaces
that sits immediately before a line terminator (LF, CR, U+2028, U+2029) or
before the end of the string. -/
def stripTrailingWS : List Char → List Char
  | [] => []
  | c :: cs =>
    if c = ' ' ∧ spacesThenBreak cs = true then stripTrailingWS cs
    else c :: stripTrailingWS cs

/-- The last character is a space. -/
def endsSpace : List Char → Bool
  | [] => false
  | [c] => c == ' '
  | _ :: cs => endsSpace cs

/-- `markdownToHtml` (App.jsx lines 651-661): empty input yields the empty
string (`if (!md) return ''`), otherwise the trailing-space cleanup runs and
the result is rendered.  The rendering step is modelled from the spec as the
ordered substitution pipeline `specRender`. -/
def markdownToHtml (md : List Char) : List Char :=
  if md = [] then [] else specRender (stripTrailingWS md)

/-- Modelled from the spec: the richer on-screen renderer (App.jsx lines
873-877, ReactMarkdown with remark-math and rehype-katex) supports a fuller
markdown-plus-math dialect; modelled as the same substitutions extended with
inline `$...$` math rendering, and without the print path's trailing-space
cleanup. -/
def onScreenRender (md : List Char) : List Char :=
  specRender (subMath md)

/-! ### Image list, saved sheets, generation handler, question stepper -/

/-- `prev.filter((_, i) => i !== index)` with the callback's running index made
explicit: keep every element whose position differs from `index`. -/
def filterIdxNe {α : Type} (index : Nat) : Nat → List α → List α
  | _, [] => []
  | i, a :: as =>
    if i = index then filterIdxNe index (i + 1) as
    else a :: filterIdxNe index (i + 1) as

/-- `deleteImage` (App.jsx lines 218-220 and 988-990, both variants):
`setImages(prev => prev.filter((_, i) => i !== index))`. -/
def deleteImage {α : Type} (images : List α) (index : Nat) : List α :=
  filterIdxNe index 0 images

/-- The state touched by `handleGenerate` (App.jsx lines 286-375); `alerts`
records the blocking `alert(...)` calls in order. -/
structure AppState where
  images : List (List Char)
  apiKey : List Char
  result : List Char
  loading : Bool
  isSettingsOpen : Bool
  alerts : List (List Char)

/-- The alert text `APIキーを入力してください` (App.jsx line 289). -/
def apiKeyAlert : List Char := ("APIキーを入力してください").data

/-- The alert text of the catch branch: `生成に失敗しました: ` followed by the
error message (App.jsx line 371). -/
def genFailPre : List Char := ("生成に失敗しました: ").data

/-- `handleGenerate` (App.jsx lines 286-375) as a state transition on the
outcome of the single AI request: the early returns for no images and no API
key, then `setResult` on success or one alert carrying the error message on
failure; `setLoading(false)` runs in the `finally` either way. -/
def handleGenerate (st : AppState) (outcome : Except (List Char) (List Char)) :
    AppState :=
  if st.images.length = 0 then st
  else if st.apiKey = [] then
    { st with alerts := st.alerts ++ [apiKeyAlert], isSettingsOpen := true }
  else
    match outcome with
    | Except.ok text => { st with result := text, loading := false }
    | Except.error e =>
      { st with loading := false, alerts := st.alerts ++ [genFailPre ++ e] }

/-- A saved sheet (App.jsx lines 77-86): snapshot of title, names, dates and
the generated result, keyed by the creation timestamp `Date.now()`. -/
structure Sheet where
  id : Nat
  title : List Char
  studentName : List Char
  instructorName : List Char
  assignDate : List Char
  dueDate : List Char
  result : List Char
  createdAt : List Char

/-- The fallback title `無題` (App.jsx line 79). -/
def defaultTitle : List Char := ("無題").data

/-- The `newSheet` object literal of `saveSheet` (App.jsx lines 77-86). -/
def mkNewSheet (now : Nat)
    (createdAt sheetTitle studentName instructorName assignDate dueDate
      result : List Char) : Sheet :=
  { id := now
    title := if sheetTitle = [] then defaultTitle else sheetTitle
    studentName := studentName
    instructorName := instructorName
    assignDate := assignDate
    dueDate := dueDate
    result := result
    createdAt := createdAt }

/-- `saveSheet` (App.jsx lines 72-91): no result means an alert and no change;
otherwise `[...savedSheets, newSheet]` is stored. -/
def saveSheet (now : Nat)
    (createdAt sheetTitle studentName instructorName assignDate dueDate
      result : List Char) (savedSheets : List Sheet) : List Sheet :=
  if result = [] then savedSheets
  else savedSheets ++
    [mkNewSheet now createdAt sheetTitle studentName instructorName assignDate
      dueDate result]

/-- `deleteSheet` (App.jsx lines 104-110): nothing happens unless the
`confirm(...)` dialog is accepted; then `savedSheets.filter(s => s.id !== id)`. -/
def deleteSheet (confirmed : Bool) (i : Nat) (savedSheets : List Sheet) :
    List Sheet :=
  if confirmed then savedSheets.filter fun sh => sh.id != i
  else savedSheets

/-- A press of the question-count stepper (App.jsx lines 790-802). -/
inductive StepperPress where
  | dec : StepperPress
  | inc : StepperPress

/-- One stepper press: `Math.max(1, questionCount - 1)` for the minus button,
`Math.min(10, questionCount + 1)` for the plus button. -/
def stepperStep (q : Int) : StepperPress → Int
  | StepperPress.dec => max 1 (q - 1)
  | StepperPress.inc => min 10 (q + 1)

/-- The question count after a sequence of presses, starting from the initial
`useState(3)` (App.jsx line 20). -/
def stepperRun (presses : List StepperPress) : Int :=
  presses.foldl stepperStep 3

/-- Input of the claim C1 counterexample: a well-formed reply whose
instructor-guide section is followed by a further `---` and trailing text. -/
def exC1 : List Char :=
  ("## 問題\nA\n---\n## 解答・解説\nB\n---\n## 講師向けガイド\nC\n---\nextra").data

/-- The exact input of the spec's worked example (claim C3). -/
def exC3 : List Char :=
  ("## 問題\nA\n### 問題1\nWhat is 2+2?\n---\n## 解答・解説\n...").data

/-- A line with a trailing space: hard-break markdown that the print path's
cleanup removes. -/
def hardBreakEx : List Char := ("a \nb").data

/-- A bare inline-math fragment. -/
def mathEx : List Char := ("$x$").data

/-! ### Lemmas about the scanning primitives -/

theorem leadsWith_append_self (u v : List Char) : leadsWith u (u ++ v) = true := by
  induction u with
  | nil => rfl
  | cons a as ih => simp [leadsWith, ih]

theorem leadsWith_refl (u : List Char) : leadsWith u u = true := by
  have h := leadsWith_append_self u []
  simpa using h

theorem leadsWith_length {u s : List Char} (h : leadsWith u s = true) :
    u.length ≤ s.length := by
  induction u generalizing s with
  | nil => simp
  | cons a as ih =>
    cases s with
    | nil => simp [leadsWith] at h
    | cons b bs =>
      simp only [leadsWith, Bool.and_eq_true] at h
      simpa using ih h.2

theorem leadsWith_take {u s : List Char} (h : leadsWith u s = true) :
    s.take u.length = u := by
  induction u generalizing s with
  | nil => simp
  | cons a as ih =>
    cases s with
    | nil => simp [leadsWith] at h
    | cons b bs =>
      simp only [leadsWith, Bool.and_eq_true, beq_iff_eq] at h
      simp [List.take, ih h.2, h.1]

theorem leadsWith_append_cancel {u v w : List Char}
    (h : leadsWith (u ++ v) (u ++ w) = true) : leadsWith v w = true := by
  induction u with
  | nil => simpa using h
  | cons a as ih =>
    simp only [List.cons_append, leadsWith, Bool.and_eq_true] at h
    exact ih h.2

theorem leadsWith_append_cases {pat r y : List Char}
    (h : leadsWith pat (r ++ y) = true) :
    leadsWith pat r = true ∨ leadsWith r pat = true := by
  induction pat generalizing r with
  | nil => exact Or.inl rfl
  | cons a as ih =>
    cases r with
    | nil => exact Or.inr rfl
    | cons b bs =>
      simp only [List.cons_append, leadsWith, Bool.and_eq_true] at h
      rcases ih h.2 with h' | h'
      · exact Or.inl (by simp [leadsWith, h.1, h'])
      · exact Or.inr (by simp [leadsWith, beq_iff_eq, (beq_iff_eq.mp h.1).symm, h'])

theorem leadsWith_of_long {u b z : List Char} (hlen : u.length ≤ b.length) :
    leadsWith u (b ++ z) = leadsWith u b := by
  induction u generalizing b with
  | nil => rfl
  | cons a as ih =>
    cases b with
    | nil => simp at hlen
    | cons c cs =>
      simp only [List.length_cons, Nat.succ_le_succ_iff] at hlen
      simp [leadsWith, ih hlen]

theorem findDrop_pos {pat s : List Char} (h : leadsWith pat s = true) :
    findDrop pat s = some (s.drop pat.length) := by
  cases s with
  | nil =>
    cases pat with
    | nil => rfl
    | cons a as => simp [leadsWith] at h
  | cons c cs => simp [findDrop, h]

theorem findDrop_cons_neg {pat : List Char} {c : Char} {cs : List Char}
    (h : leadsWith pat (c :: cs) = false) :
    findDrop pat (c :: cs) = findDrop pat cs := by
  simp [findDrop, h]

theorem containsSub_cons (pat : List Char) (c : Char) (cs : List Char) :
    containsSub pat (c :: cs) = (leadsWith pat (c :: cs) || containsSub pat cs) := by
  by_cases h : leadsWith pat (c :: cs) = true
  · simp [containsSub, findDrop, h]
  · simp only [Bool.not_eq_true] at h
    simp [containsSub, findDrop_cons_neg h, h]

theorem containsSub_of_suffix {pat r x : List Char} (hsuf : r <:+ x)
    (h : leadsWith pat r = true) : containsSub pat x = true := by
  obtain ⟨t, rfl⟩ := hsuf
  induction t with
  | nil => simp [containsSub, findDrop_pos h]
  | cons c ts ih => simp [containsSub_cons, ih]

theorem containsSub_tail {pat : List Char} {c : Char} {cs : List Char}
    (h : containsSub pat (c :: cs) = false) : containsSub pat cs = false := by
  rw [containsSub_cons] at h
  exact (Bool.or_eq_false_iff.mp h).2

theorem findDrop_append_skip {pat x y : List Char}
    (h : ∀ r, r <:+ x → r ≠ [] → leadsWith pat (r ++ y) = false) :
    findDrop pat (x ++ y) = findDrop pat y := by
  induction x with
  | nil => rfl
  | cons c cs ih =>
    have hh := h (c :: cs) (List.suffix_refl _) (by simp)
    rw [List.cons_append] at hh
    rw [List.cons_append, findDrop_cons_neg hh]
    exact ih fun r hr hne => h r (hr.trans (List.suffix_cons c cs)) hne

theorem containsSub_append_skip {pat x y : List Char}
    (h : ∀ r, r <:+ x → r ≠ [] → leadsWith pat (r ++ y) = false) :
    containsSub pat (x ++ y) = containsSub pat y := by
  unfold containsSub
  rw [findDrop_append_skip h]

theorem takeUntilStop_append_skip {x y : List Char}
    (h : ∀ r, r <:+ x → r ≠ [] → isStop (r ++ y) = false) :
    takeUntilStop (x ++ y) = x ++ takeUntilStop y := by
  induction x with
  | nil => rfl
  | cons c cs ih =>
    have hh := h (c :: cs) (List.suffix_refl _) (by simp)
    simp only [List.cons_append] at hh ⊢
    rw [takeUntilStop, if_neg (by simp [hh])]
    rw [ih fun r hr hne => h r (hr.trans (List.suffix_cons c cs)) hne]

theorem no_hit_of_tailsOk {pat x : List Char} (h : tailsOk pat x = true)
    (y : List Char) :
    ∀ r, r <:+ x → r ≠ [] → leadsWith pat (r ++ y) = false := by
  intro r hr hne
  by_contra hcon
  simp only [Bool.not_eq_false] at hcon
  have hmem : r ∈ x.tails := (List.mem_tails r x).mpr hr
  have hck := (List.all_eq_true.mp h) r hmem
  simp only [Bool.or_eq_true, Bool.and_eq_true, Bool.not_eq_true'] at hck
  rcases hck with hck | ⟨hck1, hck2⟩
  · cases r with
    | nil => exact hne rfl
    | cons a as => simp [List.isEmpty] at hck
  · rcases leadsWith_append_cases hcon with h' | h'
    · rw [hck1] at h'; exact Bool.false_ne_true h'
    · rw [hck2] at h'; exact Bool.false_ne_true h'

theorem no_hit_of_clean {pat x b : List Char} (z : List Char)
    (hx : containsSub pat x = false)
    (hlen : pat.length ≤ b.length)
    (hstr : ∀ k, k < pat.length → 0 < k → leadsWith (pat.drop k) b = false) :
    ∀ r, r <:+ x → r ≠ [] → leadsWith pat (r ++ (b ++ z)) = false := by
  intro r hr hne
  by_contra hcon
  simp only [Bool.not_eq_false] at hcon
  rcases leadsWith_append_cases hcon with h' | h'
  · rw [containsSub_of_suffix hr h'] at hx
    simp at hx
  · have hk : r.length ≤ pat.length := leadsWith_length h'
    have htake : pat.take r.length = r := leadsWith_take h'
    by_cases heq : r.length = pat.length
    · have : r = pat := by rw [← htake, heq, List.take_length]
      subst this
      rw [containsSub_of_suffix hr (leadsWith_refl r)] at hx
      simp at hx
    · have hklt : r.length < pat.length := lt_of_le_of_ne hk heq
      have hkpos : 0 < r.length := List.length_pos.mpr hne
      have hsplit : pat = r ++ pat.drop r.length := by
        conv_lhs => rw [← List.take_append_drop r.length pat]
        rw [htake]
      rw [hsplit] at hcon
      have hrest : leadsWith (pat.drop r.length) (b ++ z) = true :=
        leadsWith_append_cancel hcon
      have hdlen : (pat.drop r.length).length ≤ b.length := by
        rw [List.length_drop]; omega
      rw [leadsWith_of_long hdlen] at hrest
      rw [hstr r.length hklt hkpos] at hrest
      exact Bool.false_ne_true hrest

theorem takeUntilStop_sep (t : List Char) : takeUntilStop (sepTok ++ t) = ['\n'] := rfl

theorem trimJS_append_nl (x : List Char) : trimJS (x ++ ['\n']) = trimJS x := by
  unfold trimJS
  have h1 : (x ++ ['\n']).reverse = '\n' :: x.reverse := by simp
  rw [h1, List.dropWhile_cons, if_pos (by decide)]

/-- Claim C1 (amended): for a reply of the canonical shape
`## 問題` ++ p ++ `\n---\n` ++ `## 解答・解説` ++ s ++ `\n---\n` ++ `## 講師向けガイド` ++ g,
whose problem body `p` and solution body `s` contain no `---`, no `\n## ` and
no later heading anchor, the splitter returns the problem and solution bodies
trimmed of surrounding whitespace; the instructor-guide section is the whole
remainder `g` trimmed — it runs to the end of the text and does not stop at a
later `---` or heading marker. -/
theorem splitSections_structured (p s g : List Char)
    (hp1 : containsSub hrTok p = false) (hp2 : containsSub nhTok p = false)
    (hp3 : containsSub h2Tok p = false) (hp4 : containsSub h3Tok p = false)
    (hs1 : containsSub hrTok s = false) (hs2 : containsSub nhTok s = false)
    (hs3 : containsSub h3Tok s = false) :
    splitSections (h1Tok ++ p ++ sepTok ++ h2Tok ++ s ++ sepTok ++ h3Tok ++ g)
      = (trimJS p, trimJS s, trimJS g) := by
  have hT : h1Tok ++ p ++ sepTok ++ h2Tok ++ s ++ sepTok ++ h3Tok ++ g
      = h1Tok ++ (p ++ (sepTok ++ (h2Tok ++ (s ++ (sepTok ++ (h3Tok ++ g)))))) := by
    simp [List.append_assoc]
  rw [hT]
  have eP1 : findDrop h1Tok
      (h1Tok ++ (p ++ (sepTok ++ (h2Tok ++ (s ++ (sepTok ++ (h3Tok ++ g)))))))
      = some (p ++ (sepTok ++ (h2Tok ++ (s ++ (sepTok ++ (h3Tok ++ g)))))) := by
    rw [findDrop_pos (leadsWith_append_self h1Tok _), List.drop_left]
  have hstopP : ∀ r, r <:+ p → r ≠ [] →
      isStop (r ++ (sepTok ++ (h2Tok ++ (s ++ (sepTok ++ (h3Tok ++ g)))))) = false := by
    intro r hr hne
    have hA := @no_hit_of_clean hrTok p sepTok
      (h2Tok ++ (s ++ (sepTok ++ (h3Tok ++ g)))) hp1 (by decide) (by decide) r hr hne
    have hB := @no_hit_of_clean nhTok p sepTok
      (h2Tok ++ (s ++ (sepTok ++ (h3Tok ++ g)))) hp2 (by decide) (by decide) r hr hne
    simp [isStop, hA, hB]
  have eP2 : takeUntilStop (p ++ (sepTok ++ (h2Tok ++ (s ++ (sepTok ++ (h3Tok ++ g))))))
      = p ++ ['\n'] := by
    rw [takeUntilStop_append_skip hstopP, takeUntilStop_sep]
  have hprob : problemContent
      (h1Tok ++ (p ++ (sepTok ++ (h2Tok ++ (s ++ (sepTok ++ (h3Tok ++ g))))))) = trimJS p := by
    simp only [problemContent, eP1, eP2, trimJS_append_nl]
  have eS1 : findDrop h2Tok
      (h1Tok ++ (p ++ (sepTok ++ (h2Tok ++ (s ++ (sepTok ++ (h3Tok ++ g)))))))
      = some (s ++ (sepTok ++ (h3Tok ++ g))) := by
    rw [findDrop_append_skip (@no_hit_of_tailsOk h2Tok h1Tok (by decide) _)]
    have hskip2 : ∀ r, r <:+ p → r ≠ [] →
        leadsWith h2Tok (r ++ (sepTok ++ (h2Tok ++ (s ++ (sepTok ++ (h3Tok ++ g)))))) = false := by
      intro r hr hne
      have h := @no_hit_of_clean h2Tok p (sepTok ++ h2Tok)
        (s ++ (sepTok ++ (h3Tok ++ g))) hp3 (by decide) (by decide) r hr hne
      rwa [List.append_assoc] at h
    rw [findDrop_append_skip hskip2]
    rw [findDrop_append_skip (@no_hit_of_tailsOk h2Tok sepTok (by decide) _)]
    rw [findDrop_pos (leadsWith_append_self h2Tok _), List.drop_left]
  have hstopS : ∀ r, r <:+ s → r ≠ [] →
      isStop (r ++ (sepTok ++ (h3Tok ++ g))) = false := by
    intro r hr hne
    have hA := @no_hit_of_clean hrTok s sepTok (h3Tok ++ g) hs1 (by decide) (by decide) r hr hne
    have hB := @no_hit_of_clean nhTok s sepTok (h3Tok ++ g) hs2 (by decide) (by decide) r hr hne
    simp [isStop, hA, hB]
  have eS2 : takeUntilStop (s ++ (sepTok ++ (h3Tok ++ g))) = s ++ ['\n'] := by
    rw [takeUntilStop_append_skip hstopS, takeUntilStop_sep]
  have hsol : solutionContent
      (h1Tok ++ (p ++ (sepTok ++ (h2Tok ++ (s ++ (sepTok ++ (h3Tok ++ g))))))) = trimJS s := by
    simp only [solutionContent, eS1, eS2, trimJS_append_nl]
  have eI1 : findDrop h3Tok
      (h1Tok ++ (p ++ (sepTok ++ (h2Tok ++ (s ++ (sepTok ++ (h3Tok ++ g)))))))
      = some g := by
    rw [findDrop_append_skip (@no_hit_of_tailsOk h3Tok h1Tok (by decide) _)]
    have hskipP : ∀ r, r <:+ p → r ≠ [] →
        leadsWith h3Tok (r ++ (sepTok ++ (h2Tok ++ (s ++ (sepTok ++ (h3Tok ++ g)))))) = false := by
      intro r hr hne
      have h := @no_hit_of_clean h3Tok p (sepTok ++ h2Tok)
        (s ++ (sepTok ++ (h3Tok ++ g))) hp4 (by decide) (by decide) r hr hne
      rwa [List.append_assoc] at h
    rw [findDrop_append_skip hskipP]
    rw [findDrop_append_skip (@no_hit_of_tailsOk h3Tok sepTok (by decide) _)]
    rw [findDrop_append_skip (@no_hit_of_tailsOk h3Tok h2Tok (by decide) _)]
    have hskipS : ∀ r, r <:+ s → r ≠ [] →
        leadsWith h3Tok (r ++ (sepTok ++ (h3Tok ++ g))) = false := by
      intro r hr hne
      have h := @no_hit_of_clean h3Tok s (sepTok ++ h3Tok) g hs3 (by decide) (by decide) r hr hne
      rwa [List.append_assoc] at h
    rw [findDrop_append_skip hskipS]
    rw [findDrop_append_skip (@no_hit_of_tailsOk h3Tok sepTok (by decide) _)]
    rw [findDrop_pos (leadsWith_append_self h3Tok _), List.drop_left]
  have hinst : instructorContent
      (h1Tok ++ (p ++ (sepTok ++ (h2Tok ++ (s ++ (sepTok ++ (h3Tok ++ g))))))) = trimJS g := by
    simp only [instructorContent, eI1]
  simp only [splitSections, hprob, hsol, hinst]

/-! ### A recursion principle following the two-character lookahead of
`paraSub` -/

theorem twoStepRec {P : List Char → Prop} (h0 : P []) (h1 : ∀ c, P [c])
    (h2 : ∀ c d cs, P cs → P (d :: cs) → P (c :: d :: cs)) : ∀ s, P s := by
  have key : ∀ n (s : List Char), s.length ≤ n → P s := by
    intro n
    induction n with
    | zero =>
      intro s hs
      cases s with
      | nil => exact h0
      | cons c cs => simp at hs
    | succ n ih =>
      intro s hs
      match s with
      | [] => exact h0
      | [c] => exact h1 c
      | c :: d :: cs =>
        have l1 : cs.length ≤ n := by simp at hs; omega
        have l2 : (d :: cs).length ≤ n := by simp at hs ⊢; omega
        exact h2 c d cs (ih cs l1) (ih (d :: cs) l2)
  exact fun s => key s.length s le_rfl

theorem paraSub_break (cs : List Char) :
    paraSub ('\n' :: '\n' :: cs) = parBreakTok ++ paraSub cs := by
  simp [paraSub]

theorem paraSub_two {c d : Char} (cs : List Char) (h : ¬(c = '\n' ∧ d = '\n')) :
    paraSub (c :: d :: cs) = c :: paraSub (d :: cs) := by
  simp [paraSub, h]

theorem paraSub_head {d : Char} (cs : List Char) (h : d ≠ '\n') :
    ∃ t, paraSub (d :: cs) = d :: t := by
  cases cs with
  | nil => exact ⟨[], rfl⟩
  | cons e cs' =>
    exact ⟨paraSub (e :: cs'), paraSub_two cs' (fun hc => h hc.1)⟩

theorem paraSub_ne_nil (c : Char) (cs : List Char) : paraSub (c :: cs) ≠ [] := by
  cases cs with
  | nil => simp [paraSub]
  | cons d cs' =>
    by_cases h : c = '\n' ∧ d = '\n'
    · rw [h.1, h.2, paraSub_break]; simp [parBreakTok]
    · rw [paraSub_two cs' h]; simp

theorem mem_paraSub (ch : Char) :
    ∀ s : List Char, ch ∈ paraSub s → ch ∈ s ∨ ch ∈ parBreakTok := by
  refine twoStepRec ?_ ?_ ?_
  · intro h; simp [paraSub] at h
  · intro c h; simp [paraSub] at h; simp [h]
  · intro c d cs ih1 ih2 h
    by_cases hb : c = '\n' ∧ d = '\n'
    · rw [hb.1, hb.2, paraSub_break] at h
      rcases List.mem_append.mp h with h' | h'
      · exact Or.inr h'
      · rcases ih1 h' with h'' | h''
        · exact Or.inl (by simp; tauto)
        · exact Or.inr h''
    · rw [paraSub_two cs hb] at h
      rcases List.mem_cons.mp h with h' | h'
      · exact Or.inl (by simp [h'])
      · rcases ih2 h' with h'' | h''
        · exact Or.inl (List.mem_cons_of_mem c h'')
        · exact Or.inr h''

theorem containsSub_nlnl_paraSub :
    ∀ s : List Char, containsSub nlnlTok (paraSub s) = false := by
  refine twoStepRec ?_ ?_ ?_
  · decide
  · intro c
    simp only [paraSub]
    rw [containsSub_cons]
    simp [nlnlTok, leadsWith, containsSub, findDrop]
  · intro c d cs ih1 ih2
    by_cases hb : c = '\n' ∧ d = '\n'
    · rw [hb.1, hb.2, paraSub_break]
      rw [containsSub_append_skip (@no_hit_of_tailsOk nlnlTok parBreakTok (by decide) _)]
      exact ih1
    · rw [paraSub_two cs hb, containsSub_cons, ih2, Bool.or_false]
      by_cases hc : c = '\n'
      · have hd : d ≠ '\n' := fun hd => hb ⟨hc, hd⟩
        obtain ⟨t, ht⟩ := paraSub_head cs hd
        rw [ht, hc]
        simp [nlnlTok, leadsWith, beq_iff_eq]
        exact fun hh => hd hh.symm
      · cases hps : paraSub (d :: cs) with
        | nil => simp [nlnlTok, leadsWith]
        | cons e l =>
          simp [nlnlTok, leadsWith, beq_iff_eq]
          exact fun hh => absurd hh.symm hc

theorem paraSub_id_of_free :
    ∀ s : List Char, containsSub nlnlTok s = false → paraSub s = s := by
  refine twoStepRec ?_ ?_ ?_
  · intro _; rfl
  · intro c _; simp [paraSub]
  · intro c d cs ih1 ih2 h
    by_cases hb : c = '\n' ∧ d = '\n'
    · exfalso
      have hl : leadsWith nlnlTok (c :: d :: cs) = true := by
        simp [nlnlTok, leadsWith, hb.1, hb.2]
      rw [containsSub_cons, hl] at h
      simp at h
    · rw [paraSub_two cs hb, ih2 (containsSub_tail h)]

theorem endsSpace_two (c d : Char) (cs : List Char) :
    endsSpace (c :: d :: cs) = endsSpace (d :: cs) := rfl

theorem endsSpace_append (x y : List Char) (hy : y ≠ []) :
    endsSpace (x ++ y) = endsSpace y := by
  induction x with
  | nil => rfl
  | cons c cs ih =>
    cases hcy : cs ++ y with
    | nil => exact absurd (List.append_eq_nil.mp hcy).2 hy
    | cons d l =>
      rw [List.cons_append, hcy, endsSpace_two, ← hcy, ih]

theorem endsSpace_paraSub :
    ∀ s : List Char, endsSpace s = false → endsSpace (paraSub s) = false := by
  refine twoStepRec ?_ ?_ ?_
  · intro _; rfl
  · intro c h; simpa [paraSub] using h
  · intro c d cs ih1 ih2 h
    by_cases hb : c = '\n' ∧ d = '\n'
    · rw [hb.1, hb.2, paraSub_break]
      cases cs with
      | nil => decide
      | cons f fs =>
        rw [endsSpace_append _ _ (paraSub_ne_nil f fs)]
        apply ih1
        rw [endsSpace_two, endsSpace_two] at h
        exact h
    · rw [paraSub_two cs hb]
      cases hps : paraSub (d :: cs) with
      | nil => exact absurd hps (paraSub_ne_nil d cs)
      | cons e l =>
        rw [endsSpace_two, ← hps]
        apply ih2
        rw [endsSpace_two] at h
        exact h

theorem no_hit_of_head_not_mem {c₀ : Char} {tk x : List Char} (h : c₀ ∉ x)
    (y : List Char) :
    ∀ r, r <:+ x → r ≠ [] → leadsWith (c₀ :: tk) (r ++ y) = false := by
  intro r hr hne
  cases r with
  | nil => exact absurd rfl hne
  | cons a as =>
    have ha : a ∈ x := hr.subset (by simp)
    have hne2 : c₀ ≠ a := fun hh => h (hh ▸ ha)
    simp [leadsWith, beq_iff_eq, hne2]

theorem spTerm_paraSub (term : Char) (hlt : term ≠ '<') :
    ∀ s : List Char, containsSub [' ', term] s = false →
    containsSub [' ', term] (paraSub s) = false := by
  refine twoStepRec ?_ ?_ ?_
  · intro _; rfl
  · intro c _
    simp only [paraSub]
    rw [containsSub_cons]
    have h1 : leadsWith [' ', term] [c] = false := by
      simp [leadsWith]
    have h2 : containsSub [' ', term] ([] : List Char) = false := rfl
    rw [h1, h2]
    rfl
  · intro c d cs ih1 ih2 h
    by_cases hb : c = '\n' ∧ d = '\n'
    · rw [hb.1, hb.2, paraSub_break]
      rw [containsSub_append_skip (no_hit_of_head_not_mem (by decide) _)]
      exact ih1 (containsSub_tail (containsSub_tail h))
    · rw [paraSub_two cs hb, containsSub_cons, ih2 (containsSub_tail h), Bool.or_false]
      by_cases hc : c = ' '
      · have hfront : leadsWith [' ', term] (c :: d :: cs) = false := by
          rw [containsSub_cons] at h
          exact (Bool.or_eq_false_iff.mp h).1
        have htd : (term == d) = false := by
          rw [hc] at hfront
          simpa [leadsWith] using hfront
        rw [hc]
        by_cases hd : d = '\n'
        · subst hd
          cases cs with
          | nil =>
            simp only [paraSub]
            simp [leadsWith, htd]
          | cons e cs' =>
            by_cases he : e = '\n'
            · rw [he, paraSub_break]
              have hlt2 : (term == '<') = false := by
                simp [beq_iff_eq, hlt]
              simp [parBreakTok, leadsWith, htd, hlt2]
            · rw [paraSub_two cs' (fun hx => he hx.2)]
              simp [leadsWith, htd]
        · obtain ⟨t, ht⟩ := paraSub_head cs hd
          rw [ht]
          simp [leadsWith, htd]
      · cases hps : paraSub (d :: cs) with
        | nil => simp [leadsWith]
        | cons e l =>
          simp [leadsWith, beq_iff_eq]
          exact fun hh => absurd hh.symm hc

theorem spacesThenBreak_bad : ∀ cs : List Char, spacesThenBreak cs = true →
    containsSub [' ', '\n'] (' ' :: cs) = true ∨
    containsSub [' ', '\r'] (' ' :: cs) = true ∨
    containsSub [' ', '\u2028'] (' ' :: cs) = true ∨
    containsSub [' ', '\u2029'] (' ' :: cs) = true ∨
    endsSpace (' ' :: cs) = true := by
  intro cs
  induction cs with
  | nil => intro _; exact Or.inr (Or.inr (Or.inr (Or.inr (by decide))))
  | cons c cs' ih =>
    intro h
    by_cases e1 : c = '\n'
    · subst e1
      refine Or.inl ?_
      rw [containsSub_cons]
      have hl : leadsWith [' ', '\n'] (' ' :: '\n' :: cs') = true := by
        simp [leadsWith]
      rw [hl]
      rfl
    · by_cases e2 : c = '\r'
      · subst e2
        refine Or.inr (Or.inl ?_)
        rw [containsSub_cons]
        have hl : leadsWith [' ', '\r'] (' ' :: '\r' :: cs') = true := by
          simp [leadsWith]
        rw [hl]
        rfl
      · by_cases e3 : c = '\u2028'
        · subst e3
          refine Or.inr (Or.inr (Or.inl ?_))
          rw [containsSub_cons]
          have hl : leadsWith [' ', '\u2028'] (' ' :: '\u2028' :: cs') = true := by
            simp [leadsWith]
          rw [hl]
          rfl
        · by_cases e4 : c = '\u2029'
          · subst e4
            refine Or.inr (Or.inr (Or.inr (Or.inl ?_)))
            rw [containsSub_cons]
            have hl : leadsWith [' ', '\u2029'] (' ' :: '\u2029' :: cs') = true := by
              simp [leadsWith]
            rw [hl]
            rfl
          · by_cases e5 : c = ' '
            · subst e5
              have hterm : isLineTerm ' ' = false := by decide
              simp only [spacesThenBreak, hterm, if_neg (by decide : ¬(false = true)),
                if_pos rfl] at h
              rcases ih h with h' | h' | h' | h' | h'
              · refine Or.inl ?_
                rw [containsSub_cons, h']
                simp
              · refine Or.inr (Or.inl ?_)
                rw [containsSub_cons, h']
                simp
              · refine Or.inr (Or.inr (Or.inl ?_))
                rw [containsSub_cons, h']
                simp
              · refine Or.inr (Or.inr (Or.inr (Or.inl ?_)))
                rw [containsSub_cons, h']
                simp
              · refine Or.inr (Or.inr (Or.inr (Or.inr ?_)))
                rw [endsSpace_two]
                exact h'
            · have hterm : isLineTerm c = false := by
                simp [isLineTerm, beq_iff_eq, e1, e2, e3, e4]
              simp [spacesThenBreak, hterm, e5] at h

theorem stripTrailingWS_id (s : List Char)
    (h1 : containsSub [' ', '\n'] s = false)
    (h2 : containsSub [' ', '\r'] s = false)
    (h3 : containsSub [' ', '\u2028'] s = false)
    (h4 : containsSub [' ', '\u2029'] s = false)
    (h5 : endsSpace s = false) : stripTrailingWS s = s := by
  induction s with
  | nil => rfl
  | cons c cs ih =>
    simp only [stripTrailingWS]
    rw [if_neg ?hneg]
    · congr 1
      apply ih (containsSub_tail h1) (containsSub_tail h2) (containsSub_tail h3)
        (containsSub_tail h4)
      cases cs with
      | nil => rfl
      | cons d cs' =>
        rw [endsSpace_two] at h5
        exact h5
    case hneg =>
      rintro ⟨hc, hsb⟩
      subst hc
      rcases spacesThenBreak_bad cs hsb with h' | h' | h' | h' | h'
      · rw [h1] at h'; exact Bool.false_ne_true h'
      · rw [h2] at h'; exact Bool.false_ne_true h'
      · rw [h3] at h'; exact Bool.false_ne_true h'
      · rw [h4] at h'; exact Bool.false_ne_true h'
      · rw [h5] at h'; exact Bool.false_ne_true h'

theorem splitLines_ne_nil (s : List Char) : splitLines s ≠ [] := by
  cases s with
  | nil => simp [splitLines]
  | cons c cs =>
    simp only [splitLines]
    split
    · simp
    · split <;> simp

theorem joinLines_splitLines (s : List Char) : joinLines (splitLines s) = s := by
  induction s with
  | nil => rfl
  | cons c cs ih =>
    simp only [splitLines]
    by_cases hc : c = '\n'
    · rw [if_pos hc]
      cases hs : splitLines cs with
      | nil => exact absurd hs (splitLines_ne_nil cs)
      | cons l ls =>
        rw [hs] at ih
        simp only [joinLines]
        rw [List.nil_append, hc, ih]
    · rw [if_neg hc]
      cases hs : splitLines cs with
      | nil => exact absurd hs (splitLines_ne_nil cs)
      | cons l ls =>
        rw [hs] at ih
        cases ls with
        | nil =>
          simp only [joinLines] at ih ⊢
          rw [ih]
        | cons l2 ls2 =>
          simp only [joinLines] at ih ⊢
          rw [List.cons_append, ih]

theorem mem_of_mem_splitLines {ch : Char} : ∀ (s l : List Char),
    l ∈ splitLines s → ch ∈ l → ch ∈ s := by
  intro s
  induction s with
  | nil =>
    intro l hl hch
    simp [splitLines] at hl
    subst hl
    simp at hch
  | cons c cs ih =>
    intro l hl hch
    simp only [splitLines] at hl
    by_cases hc : c = '\n'
    · rw [if_pos hc] at hl
      rcases List.mem_cons.mp hl with h' | h'
      · subst h'; simp at hch
      · exact List.mem_cons_of_mem c (ih l h' hch)
    · rw [if_neg hc] at hl
      cases hs : splitLines cs with
      | nil => exact absurd hs (splitLines_ne_nil cs)
      | cons l0 ls =>
        rw [hs] at hl
        rcases List.mem_cons.mp hl with h' | h'
        · subst h'
          rcases List.mem_cons.mp hch with h'' | h''
          · simp [h'']
          · exact List.mem_cons_of_mem c
              (ih l0 (by rw [hs]; exact List.mem_cons_self l0 ls) h'')
        · exact List.mem_cons_of_mem c
            (ih l (by rw [hs]; exact List.mem_cons_of_mem l0 h') hch)

theorem leadsWith_false_of_head {c₀ : Char} {tk l : List Char} (h : c₀ ∉ l) :
    leadsWith (c₀ :: tk) l = false := by
  cases l with
  | nil => rfl
  | cons b bs =>
    have hne : c₀ ≠ b := fun hh => h (by simp [hh])
    simp [leadsWith, beq_iff_eq, hne]

theorem h3Sub_id {l : List Char} (h : '#' ∉ l) : h3Sub l = l := by
  unfold h3Sub
  have hl : leadsWith h3LeadTok l = false := by
    rw [show h3LeadTok = '#' :: ['#', '#', ' '] from rfl]
    exact leadsWith_false_of_head h
  rw [if_neg (by simp [hl])]

theorem map_id_of_mem {α : Type} {f : α → α} :
    ∀ l : List α, (∀ a ∈ l, f a = a) → l.map f = l := by
  intro l
  induction l with
  | nil => intro _; rfl
  | cons a as ih =>
    intro h
    simp only [List.map_cons]
    rw [h a (List.mem_cons_self a as),
      ih (fun b hb => h b (List.mem_cons_of_mem a hb))]

theorem subH3_id (s : List Char) (h : '#' ∉ s) : subH3 s = s := by
  unfold subH3
  rw [map_id_of_mem (splitLines s)
    (fun l hl => h3Sub_id (fun hch => h (mem_of_mem_splitLines s l hl hch)))]
  exact joinLines_splitLines s

theorem splitOnce_none_of_not_mem {c₀ : Char} {tk : List Char} :
    ∀ s : List Char, c₀ ∉ s → splitOnce (c₀ :: tk) s = none := by
  intro s
  induction s with
  | nil => intro _; rfl
  | cons c cs ih =>
    intro h
    have hnl : leadsWith (c₀ :: tk) (c :: cs) = false := leadsWith_false_of_head h
    simp only [splitOnce]
    rw [if_neg (by simp [hnl])]
    rw [ih (fun hh => h (List.mem_cons_of_mem c hh))]

theorem subPair_id {tok oT cT s : List Char}
    (h : splitOnce tok s = none) : subPair tok oT cT s = s := by
  unfold subPair
  cases s.length with
  | zero => rfl
  | succ n => simp [subPairFuel, h]

theorem subBold_id {s : List Char} (h : '*' ∉ s) : subBold s = s :=
  subPair_id (splitOnce_none_of_not_mem s h)

theorem subItal_id {s : List Char} (h : '*' ∉ s) : subItal s = s :=
  subPair_id (splitOnce_none_of_not_mem s h)

theorem subMath_id {s : List Char} (h : '$' ∉ s) : subMath s = s :=
  subPair_id (splitOnce_none_of_not_mem s h)

theorem specRender_plain {s : List Char} (h1 : '#' ∉ s) (h2 : '*' ∉ s) :
    specRender s = paraSub s := by
  unfold specRender
  rw [subH3_id s h1, subBold_id h2, subItal_id h2]

/-- Claim C4: on plain text with no markdown syntax (no `#`, no `*`, and no
hard-break trailing spaces, i.e. no space immediately before a line terminator
— LF, CR, U+2028 or U+2029, the positions where the multiline `$` of the
cleanup regex matches — or at the end of the text), the print-path transform
`markdownToHtml` returns the input with only the paragraph-break substitution
applied, and applying the transform again leaves the result unchanged. -/
theorem markdownToHtml_plain (md : List Char)
    (h1 : '#' ∉ md) (h2 : '*' ∉ md)
    (h3 : containsSub [' ', '\n'] md = false)
    (h4 : containsSub [' ', '\r'] md = false)
    (h5 : containsSub [' ', '\u2028'] md = false)
    (h6 : containsSub [' ', '\u2029'] md = false)
    (h7 : endsSpace md = false) :
    markdownToHtml md = paraSub md ∧
    markdownToHtml (markdownToHtml md) = markdownToHtml md := by
  have hstrip : stripTrailingWS md = md := stripTrailingWS_id md h3 h4 h5 h6 h7
  have part1 : markdownToHtml md = paraSub md := by
    unfold markdownToHtml
    by_cases hmd : md = []
    · subst hmd; rfl
    · rw [if_neg hmd, hstrip, specRender_plain h1 h2]
  refine ⟨part1, ?_⟩
  rw [part1]
  have ht1 : '#' ∉ paraSub md := by
    intro hmem
    rcases mem_paraSub '#' md hmem with h' | h'
    · exact h1 h'
    · exact absurd h' (by decide)
  have ht2 : '*' ∉ paraSub md := by
    intro hmem
    rcases mem_paraSub '*' md hmem with h' | h'
    · exact h2 h'
    · exact absurd h' (by decide)
  have ht3 : containsSub [' ', '\n'] (paraSub md) = false :=
    spTerm_paraSub '\n' (by decide) md h3
  have ht4 : containsSub [' ', '\r'] (paraSub md) = false :=
    spTerm_paraSub '\r' (by decide) md h4
  have ht5 : containsSub [' ', '\u2028'] (paraSub md) = false :=
    spTerm_paraSub '\u2028' (by decide) md h5
  have ht6 : containsSub [' ', '\u2029'] (paraSub md) = false :=
    spTerm_paraSub '\u2029' (by decide) md h6
  have ht7 : endsSpace (paraSub md) = false := endsSpace_paraSub md h7
  have ht8 : containsSub nlnlTok (paraSub md) = false := containsSub_nlnl_paraSub md
  unfold markdownToHtml
  by_cases hte : paraSub md = []
  · rw [if_pos hte, hte]
  · rw [if_neg hte, stripTrailingWS_id (paraSub md) ht3 ht4 ht5 ht6 ht7,
      specRender_plain ht1 ht2]
    exact paraSub_id_of_free (paraSub md) ht8

/-! ### Image deletion, generation handler, saved sheets, stepper -/

theorem filterIdxNe_high {α : Type} : ∀ (l : List α) (n index : Nat),
    index < n → filterIdxNe index n l = l := by
  intro l
  induction l with
  | nil => intro n index _; rfl
  | cons a as ih =>
    intro n index h
    unfold filterIdxNe
    rw [if_neg (by omega), ih (n + 1) index (by omega)]

theorem filterIdxNe_eq {α : Type} : ∀ (l : List α) (n index : Nat), n ≤ index →
    filterIdxNe index n l = l.take (index - n) ++ l.drop (index - n + 1) := by
  intro l
  induction l with
  | nil => intro n index _; simp [filterIdxNe]
  | cons a as ih =>
    intro n index h
    by_cases hn : n = index
    · subst hn
      unfold filterIdxNe
      rw [if_pos rfl, filterIdxNe_high as (n + 1) n (by omega)]
      simp
    · have hlt : n < index := by omega
      unfold filterIdxNe
      rw [if_neg hn, ih (n + 1) index (by omega)]
      have e1 : index - n = (index - (n + 1)) + 1 := by omega
      rw [e1]
      simp only [List.take_succ_cons, List.drop_succ_cons, List.cons_append]

/-- Claim C6: deleting the image at a valid index `i` removes exactly that
image — the result is the prefix before `i` followed by the suffix after `i`,
so relative order is preserved — and the length drops by one.  Both source
variants of `deleteImage` are the same filter expression. -/
theorem deleteImage_spec {α : Type} (l : List α) (i : Nat) (h : i < l.length) :
    deleteImage l i = l.take i ++ l.drop (i + 1) ∧
    (deleteImage l i).length = l.length - 1 := by
  have he : deleteImage l i = l.take i ++ l.drop (i + 1) := by
    unfold deleteImage
    rw [filterIdxNe_eq l 0 i (by omega)]
    simp
  refine ⟨he, ?_⟩
  rw [he]
  simp only [List.length_append, List.length_take, List.length_drop]
  omega

/-- Witness for C6 at a concrete list and index. -/
theorem deleteImage_spec_witness :
    1 < [10, 20, 30].length ∧ deleteImage [10, 20, 30] 1 = [10, 30] ∧
    (deleteImage [10, 20, 30] 1).length = 2 := by
  have h := deleteImage_spec [10, 20, 30] 1 (by decide)
  exact ⟨by decide, h.1.trans (by decide), h.2.trans (by decide)⟩

/-- Claim C8: when the generation request fails with message `e` (the guards
for images and API key having passed), the failure surfaces as exactly one new
alert `生成に失敗しました: e`; the previously stored result is unchanged, the
loading flag is reset by the `finally`, and the images and key are untouched.
The transition consumes a single request outcome — there is no retry. -/
theorem handleGenerate_error (st : AppState) (e : List Char)
    (h1 : st.images ≠ []) (h2 : st.apiKey ≠ []) :
    (handleGenerate st (Except.error e)).result = st.result ∧
    (handleGenerate st (Except.error e)).alerts = st.alerts ++ [genFailPre ++ e] ∧
    (handleGenerate st (Except.error e)).loading = false ∧
    (handleGenerate st (Except.error e)).images = st.images ∧
    (handleGenerate st (Except.error e)).apiKey = st.apiKey := by
  have hlen : ¬ st.images.length = 0 := by
    simp only [List.length_eq_zero]
    exact h1
  unfold handleGenerate
  rw [if_neg hlen, if_neg h2]
  exact ⟨rfl, rfl, rfl, rfl, rfl⟩

/-- Witness for C8 at a concrete state. -/
theorem handleGenerate_error_witness :
    ([['i']] : List (List Char)) ≠ [] ∧
    (handleGenerate (AppState.mk [['i']] ['k'] ['r'] true false [])
      (Except.error ['x'])).result = ['r'] ∧
    (handleGenerate (AppState.mk [['i']] ['k'] ['r'] true false [])
      (Except.error ['x'])).alerts = [genFailPre ++ ['x']] := by
  have h := handleGenerate_error (AppState.mk [['i']] ['k'] ['r'] true false [])
    ['x'] (by decide) (by decide)
  exact ⟨by decide, h.1, h.2.1.trans (by decide)⟩

/-- Claim C9: the saved-sheets list supports only append and delete-by-id:
with a nonempty result, `saveSheet` appends exactly one new sheet, keyed by
the creation timestamp `Date.now()`, to the end of the persisted list, leaving
every existing sheet unchanged; a confirmed `deleteSheet` removes exactly the
sheets whose id equals the given id, keeping all others in their order (the
result is a sublist of the original). -/
theorem sheets_append_delete (now : Nat)
    (ca t sn im ad dd res : List Char) (sheets : List Sheet) (i : Nat)
    (h : res ≠ []) :
    saveSheet now ca t sn im ad dd res sheets
      = sheets ++ [mkNewSheet now ca t sn im ad dd res] ∧
    (mkNewSheet now ca t sn im ad dd res).id = now ∧
    deleteSheet true i sheets = sheets.filter (fun sh => sh.id != i) ∧
    List.Sublist (deleteSheet true i sheets) sheets ∧
    ∀ sh, sh ∈ deleteSheet true i sheets ↔ sh ∈ sheets ∧ sh.id ≠ i := by
  have hdel : deleteSheet true i sheets = sheets.filter (fun sh => sh.id != i) := rfl
  refine ⟨?_, rfl, hdel, ?_, ?_⟩
  · unfold saveSheet
    rw [if_neg h]
  · rw [hdel]
    exact List.filter_sublist _
  · intro sh
    rw [hdel]
    simp [List.mem_filter]

/-- Witness for C9 at concrete data. -/
theorem sheets_append_delete_witness :
    (['r'] : List Char) ≠ [] ∧
    saveSheet 7 [] [] [] [] [] [] ['r'] []
      = [mkNewSheet 7 [] [] [] [] [] [] ['r']] ∧
    (mkNewSheet 7 [] [] [] [] [] [] ['r']).id = 7 := by
  have h := sheets_append_delete 7 [] [] [] [] [] [] ['r'] [] 0 (by decide)
  exact ⟨by decide, h.1.trans (by simp), h.2.1⟩

theorem stepper_aux : ∀ (ps : List StepperPress) (q : Int), 1 ≤ q → q ≤ 10 →
    1 ≤ ps.foldl stepperStep q ∧ ps.foldl stepperStep q ≤ 10 := by
  intro ps
  induction ps with
  | nil =>
    intro q hq1 hq2
    exact ⟨hq1, hq2⟩
  | cons a ps ih =>
    intro q hq1 hq2
    rw [List.foldl_cons]
    apply ih
    · cases a <;> (simp only [stepperStep]; omega)
    · cases a <;> (simp only [stepperStep]; omega)

/-- Claim C10: starting from the initial value 3, every sequence of question
stepper presses keeps the invariant 1 ≤ questionCount ≤ 10: the minus button
never takes the count below 1 and the plus button never above 10. -/
theorem stepper_invariant (ps : List StepperPress) :
    1 ≤ stepperRun ps ∧ stepperRun ps ≤ 10 :=
  stepper_aux ps 3 (by norm_num) (by norm_num)

theorem problemContent_empty {text : List Char}
    (h : containsSub h1Tok text = false) : problemContent text = [] := by
  unfold containsSub at h
  cases hf : findDrop h1Tok text with
  | some r => rw [hf] at h; simp at h
  | none => unfold problemContent; rw [hf]

theorem solutionContent_empty {text : List Char}
    (h : containsSub h2Tok text = false) : solutionContent text = [] := by
  unfold containsSub at h
  cases hf : findDrop h2Tok text with
  | some r => rw [hf] at h; simp at h
  | none => unfold solutionContent; rw [hf]

theorem instructorContent_empty {text : List Char}
    (h : containsSub h3Tok text = false) : instructorContent text = [] := by
  unfold containsSub at h
  cases hf : findDrop h3Tok text with
  | some r => rw [hf] at h; simp at h
  | none => unfold instructorContent; rw [hf]

/-- Claim C2: a text in which one of the three fixed headings is absent yields
the empty string for that section, while the other two components of the split
remain exactly what their own headings determine. -/
theorem missing_heading_empty (text : List Char) :
    (containsSub h1Tok text = false →
      splitSections text = ([], solutionContent text, instructorContent text)) ∧
    (containsSub h2Tok text = false →
      splitSections text = (problemContent text, [], instructorContent text)) ∧
    (containsSub h3Tok text = false →
      splitSections text = (problemContent text, solutionContent text, [])) := by
  refine ⟨?_, ?_, ?_⟩
  · intro h
    simp [splitSections, problemContent_empty h]
  · intro h
    simp [splitSections, solutionContent_empty h]
  · intro h
    simp [splitSections, instructorContent_empty h]

/-- Witness for C2 at a text whose solution and instructor headings are absent. -/
theorem missing_heading_empty_witness :
    containsSub h2Tok ("## 問題\nonly").data = false ∧
    splitSections ("## 問題\nonly").data
      = (problemContent ("## 問題\nonly").data, [],
         instructorContent ("## 問題\nonly").data) := by
  have h := missing_heading_empty ("## 問題\nonly").data
  exact ⟨by decide, h.2.1 (by decide)⟩

/-- Claim C7: the section extraction of `openPrintPreview` is total: for every
input string — empty, malformed or with reordered headings — the guarded
extraction returns three (possibly empty) strings and never signals an error. -/
theorem splitSectionsE_ok (text : List Char) :
    splitSectionsE text = Except.ok (splitSections text) := by
  unfold splitSectionsE problemContentE solutionContentE instructorContentE
    splitSections problemContent solutionContent instructorContent
  cases findDrop h1Tok text <;> cases findDrop h2Tok text <;>
    cases findDrop h3Tok text <;> rfl

/-- Claim C1 counterexample: `exC1` contains the three headings in order, yet
the instructor-guide extraction runs to the end of the text instead of
stopping at the `---` marker that follows the section, as the claim
(formalised uniformly by `specInstructorContent`) requires. -/
theorem instructor_runs_to_end :
    instructorContent exC1 = ("C\n---\nextra").data ∧
    specInstructorContent exC1 = ("C").data ∧
    instructorContent exC1 ≠ specInstructorContent exC1 :=
  ⟨by decide, by decide, by decide⟩

/-- Witness for C1 (amended) at concrete section bodies. -/
theorem splitSections_structured_witness :
    containsSub hrTok ("\nP\n").data = false ∧
    splitSections (h1Tok ++ ("\nP\n").data ++ sepTok ++ h2Tok ++ ("\nS\n").data
        ++ sepTok ++ h3Tok ++ ("\nG\n").data)
      = (("P").data, ("S").data, ("G").data) := by
  have h := splitSections_structured ("\nP\n").data ("\nS\n").data ("\nG\n").data
    (by decide) (by decide) (by decide) (by decide) (by decide) (by decide)
    (by decide)
  exact ⟨by decide, h.trans (by decide)⟩

/-- Claim C3 counterexample: on the spec's own example input the
problem-section extraction does not return `### 問題1\nWhat is 2+2?` — the
capture starts right after the `## 問題` anchor, so the `A` line survives the
trim. -/
theorem problem_example_keeps_A :
    problemContent exC3 ≠ ("### 問題1\nWhat is 2+2?").data := by decide

/-- Claim C3 (amended): on the spec's example input the problem-section
extraction returns exactly `A\n### 問題1\nWhat is 2+2?` — the content between
the `## 問題` anchor and the `---` marker, trimmed, including the `A` line. -/
theorem problem_example_value :
    problemContent exC3 = ("A\n### 問題1\nWhat is 2+2?").data := by decide

/-- Claim C5: the print-path renderer converts only its restricted subset — it
leaves inline math untouched — while the richer on-screen renderer transforms
math, and the two renderers disagree on concrete inputs: on `$x$` because of
the math dialect, and on a hard-break line `a \nb` because only the print path
strips trailing spaces before rendering. -/
theorem renderers_diverge :
    markdownToHtml mathEx = mathEx ∧
    onScreenRender mathEx ≠ markdownToHtml mathEx ∧
    markdownToHtml hardBreakEx ≠ onScreenRender hardBreakEx :=
  ⟨by decide, by decide, by decide⟩

/-- Witness for C4 at a concrete plain-text input. -/
theorem markdownToHtml_plain_witness :
    ('#' ∉ ("hello\n\nworld").data ∧ '*' ∉ ("hello\n\nworld").data ∧
      containsSub [' ', '\n'] ("hello\n\nworld").data = false ∧
      containsSub [' ', '\r'] ("hello\n\nworld").data = false ∧
      containsSub [' ', '\u2028'] ("hello\n\nworld").data = false ∧
      containsSub [' ', '\u2029'] ("hello\n\nworld").data = false ∧
      endsSpace ("hello\n\nworld").data = false) ∧
    markdownToHtml ("hello\n\nworld").data = paraSub ("hello\n\nworld").data ∧
    markdownToHtml (markdownToHtml ("hello\n\nworld").data)
      = markdownToHtml ("hello\n\nworld").data := by
  have h := markdownToHtml_plain ("hello\n\nworld").data
    (by decide) (by decide) (by decide) (by decide) (by decide) (by decide)
    (by decide)
  exact ⟨⟨by decide, by decide, by decide, by decide, by decide, by decide,
    by decide⟩, h.1, h.2⟩
